import Mathlib

/-!
# Hotel_Management: the Tailwind configuration `tailwind.config.js`

The repository's only source file assigns one object literal to
`module.exports`.  The literal is embedded as a value of `JsValue`, the
fragment of JavaScript values that the literal uses (strings, arrays and
objects with their properties in source order).  Property access is modelled
by `JsValue.getProp`, and the projections `content`, `theme`, `extend` and
`plugins` read the value the way a consumer of the module does.
-/

namespace TailwindConfig

/-- JavaScript values that occur in the object literal of `tailwind.config.js`:
string literals, array literals and object literals.  An object keeps its
properties as key/value pairs in the order in which the source writes them. -/
inductive JsValue where
  | str : String → JsValue
  | arr : List JsValue → JsValue
  | obj : List (String × JsValue) → JsValue

/-- The value assigned to `module.exports` in `tailwind.config.js`, lines 2-13.
The third and fourth patterns are `./main/**/*.{html,js}` and `./*.{html,js}`;
their braces are written with the escapes `\x7b` and `\x7d`. -/
def module_exports : JsValue :=
  JsValue.obj [
    ("content", JsValue.arr [
      JsValue.str "./templates/**/*.html",
      JsValue.str "./static/**/*.js",
      JsValue.str "./main/**/*.\x7bhtml,js\x7d",
      JsValue.str "./*.\x7bhtml,js\x7d"
    ]),
    ("theme", JsValue.obj [
      ("extend", JsValue.obj [])
    ]),
    ("plugins", JsValue.arr [])
  ]

/-- Own property names of a value, in order (`Object.keys`); a string or an
array contributes none here, as only objects are inspected this way. -/
def JsValue.keys : JsValue → List String
  | JsValue.obj fields => fields.map Prod.fst
  | _ => []

/-- Own-property lookup `v.key` on an object literal: the value written under
`key`, `none` when the literal has no such key (properties inherited from the
prototype are not part of the literal and are not modelled). -/
def JsValue.getProp : JsValue → String → Option JsValue
  | JsValue.obj fields, key => fields.lookup key
  | _, _ => none

/-- The elements of an array value. -/
def JsValue.elements : JsValue → Option (List JsValue)
  | JsValue.arr items => some items
  | _ => none

/-- The characters of a string value. -/
def JsValue.asString : JsValue → Option String
  | JsValue.str s => some s
  | _ => none

/-- Reads a value as an array of strings; `none` when it is not one. -/
def JsValue.stringList (v : JsValue) : Option (List String) :=
  match v.elements with
  | some items => items.mapM JsValue.asString
  | none => none

/-- The glob list `module.exports.content`. -/
def content : Option (List String) :=
  match module_exports.getProp "content" with
  | some v => v.stringList
  | none => none

/-- The value `module.exports.theme`. -/
def theme : Option JsValue :=
  module_exports.getProp "theme"

/-- The value `module.exports.theme.extend`. -/
def extend : Option JsValue :=
  match theme with
  | some t => t.getProp "extend"
  | none => none

/-- The value `module.exports.plugins`. -/
def plugins : Option (List JsValue) :=
  match module_exports.getProp "plugins" with
  | some v => v.elements
  | none => none

/-- The four glob patterns, as a plain list, for use where the list itself
rather than the optional result of the property access is wanted. -/
def contentPatterns : List String :=
  content.getD []

/-! ## A JSON text form for the round-trip scenario

`tailwind.config.js` contains no serializer and no reader.  The scenario of
the specification serializes the configuration to a structured-data text form
and reads it back, so both directions are modelled here after ECMAScript's
`JSON.stringify` (without indentation) and `JSON.parse`, restricted to the
values of `JsValue`.  Texts are lists of characters; characters are compared
through their code points. -/

/-- Modelled from the spec: the lower-case hexadecimal digit of a number below
16, used by the `\u00XX` escapes of the text form (no serializer is part of
the repository). -/
def hexDigit (n : Nat) : Char :=
  if n < 10 then Char.ofNat (48 + n) else Char.ofNat (87 + n)

/-- Modelled from the spec: the escape of one character inside a JSON string,
after `QuoteJSONString`: the quote and the backslash are preceded by a
backslash, the control characters 8, 9, 10, 12, 13 use their short escapes,
any other character below 32 becomes `\u00XX`, and every other character
stands for itself (no serializer is part of the repository). -/
def quoteChar (c : Char) : List Char :=
  let n := c.toNat
  if n = 34 then [Char.ofNat 92, Char.ofNat 34]
  else if n = 92 then [Char.ofNat 92, Char.ofNat 92]
  else if n = 8 then [Char.ofNat 92, 'b']
  else if n = 9 then [Char.ofNat 92, 't']
  else if n = 10 then [Char.ofNat 92, 'n']
  else if n = 12 then [Char.ofNat 92, 'f']
  else if n = 13 then [Char.ofNat 92, 'r']
  else if n < 32 then [Char.ofNat 92, 'u', '0', '0', hexDigit (n / 16), hexDigit (n % 16)]
  else [c]

/-- Modelled from the spec: a string between double quotes with its characters
escaped (no serializer is part of the repository). -/
def quoteJSONString (s : String) : List Char :=
  Char.ofNat 34 :: (s.toList.flatMap quoteChar ++ [Char.ofNat 34])

mutual
/-- Modelled from the spec: the JSON text of a value, after `JSON.stringify`
with no indentation: a string is quoted, an array is its elements between
brackets, an object is its `key:value` members between braces, both separated
by commas (no serializer is part of the repository). -/
def stringify : JsValue → List Char
  | JsValue.str s => quoteJSONString s
  | JsValue.arr items => '[' :: (stringifyItems items ++ [']'])
  | JsValue.obj fields => Char.ofNat 123 :: (stringifyFields fields ++ [Char.ofNat 125])
/-- Modelled from the spec: the elements of an array, separated by commas. -/
def stringifyItems : List JsValue → List Char
  | [] => []
  | [v] => stringify v
  | v :: rest => stringify v ++ ',' :: stringifyItems rest
/-- Modelled from the spec: the members of an object, separated by commas. -/
def stringifyFields : List (String × JsValue) → List Char
  | [] => []
  | [(k, v)] => quoteJSONString k ++ ':' :: stringify v
  | (k, v) :: rest => quoteJSONString k ++ ':' :: stringify v ++ ',' :: stringifyFields rest
end

/-- Modelled from the spec: `JSON.stringify(value)` as a string. -/
def JSONstringify (v : JsValue) : String :=
  String.mk (stringify v)

/-- Modelled from the spec: JSON white space (space, tab, line feed, carriage
return) is skipped between tokens (no reader is part of the repository). -/
def skipWs : List Char → List Char
  | [] => []
  | c :: cs =>
    if c.toNat = 32 ∨ c.toNat = 9 ∨ c.toNat = 10 ∨ c.toNat = 13 then skipWs cs else c :: cs

/-- Modelled from the spec: the value of a hexadecimal digit, either case. -/
def hexValue (c : Char) : Option Nat :=
  let n := c.toNat
  if 48 ≤ n ∧ n ≤ 57 then some (n - 48)
  else if 97 ≤ n ∧ n ≤ 102 then some (n - 87)
  else if 65 ≤ n ∧ n ≤ 70 then some (n - 55)
  else none

/-- Modelled from the spec: the character named by the four hexadecimal digits
of a `\uXXXX` escape; a surrogate code unit names no character of the
model. -/
def unicodeEscape (a b c d : Char) : Option Char :=
  match hexValue a, hexValue b, hexValue c, hexValue d with
  | some x, some y, some z, some w =>
    let n := ((x * 16 + y) * 16 + z) * 16 + w
    if 0xD800 ≤ n ∧ n ≤ 0xDFFF then none else some (Char.ofNat n)
  | _, _, _, _ => none

/-- Modelled from the spec: the character named by a one-letter escape
(the quote, the backslash, `/`, `b`, `f`, `n`, `r`, `t`). -/
def simpleEscape (c : Char) : Option Char :=
  let n := c.toNat
  if n = 34 then some (Char.ofNat 34)
  else if n = 92 then some (Char.ofNat 92)
  else if n = 47 then some '/'
  else if n = 98 then some (Char.ofNat 8)
  else if n = 102 then some (Char.ofNat 12)
  else if n = 110 then some (Char.ofNat 10)
  else if n = 114 then some (Char.ofNat 13)
  else if n = 116 then some (Char.ofNat 9)
  else none

/-- Modelled from the spec: reads the characters of a JSON string after its
opening quote, up to and including the closing quote; `acc` holds the
characters read so far, last first.  Unescaped control characters and
unknown escapes are rejected. -/
def parseStringBody : List Char → List Char → Option (String × List Char)
  | [], _ => none
  | c :: cs, acc =>
    if c.toNat = 34 then some (String.mk acc.reverse, cs)
    else if c.toNat = 92 then
      match cs with
      | [] => none
      | e :: rest =>
        if e.toNat = 117 then
          match rest with
          | h1 :: h2 :: h3 :: h4 :: rest4 =>
            match unicodeEscape h1 h2 h3 h4 with
            | some u => parseStringBody rest4 (u :: acc)
            | none => none
          | _ => none
        else
          match simpleEscape e with
          | some u => parseStringBody rest (u :: acc)
          | none => none
    else if c.toNat < 32 then none
    else parseStringBody cs (c :: acc)

/-- Modelled from the spec: defines property `k` with value `v` on the members
read so far: a repeated key keeps its place and takes the later value. -/
def setField (k : String) (v : JsValue) : List (String × JsValue) → List (String × JsValue)
  | [] => [(k, v)]
  | (k1, v1) :: rest => if k1 = k then (k1, v) :: rest else (k1, v1) :: setField k v rest

mutual
/-- Modelled from the spec: reads one JSON value (a string, an array or an
object) from the front of the text and returns it with the rest of the text.
`fuel` bounds the nesting and the number of elements; the length of the text
plus one is always enough. -/
def parseValue : Nat → List Char → Option (JsValue × List Char)
  | 0, _ => none
  | fuel + 1, input =>
    match skipWs input with
    | [] => none
    | c :: cs =>
      if c.toNat = 34 then
        match parseStringBody cs [] with
        | some (s, rest) => some (JsValue.str s, rest)
        | none => none
      else if c.toNat = 91 then
        match skipWs cs with
        | [] => none
        | d :: ds =>
          if d.toNat = 93 then some (JsValue.arr [], ds)
          else parseElements fuel (d :: ds) []
      else if c.toNat = 123 then
        match skipWs cs with
        | [] => none
        | d :: ds =>
          if d.toNat = 125 then some (JsValue.obj [], ds)
          else parseMembers fuel (d :: ds) []
      else none
/-- Modelled from the spec: reads the elements of a non-empty array up to and
including the closing bracket; `acc` holds the elements read so far, last
first. -/
def parseElements : Nat → List Char → List JsValue → Option (JsValue × List Char)
  | 0, _, _ => none
  | fuel + 1, input, acc =>
    match parseValue fuel input with
    | none => none
    | some (v, rest) =>
      match skipWs rest with
      | [] => none
      | c :: cs =>
        if c.toNat = 44 then parseElements fuel cs (v :: acc)
        else if c.toNat = 93 then some (JsValue.arr (v :: acc).reverse, cs)
        else none
/-- Modelled from the spec: reads the members of a non-empty object up to and
including the closing brace; `acc` holds the members read so far, in
order. -/
def parseMembers : Nat → List Char → List (String × JsValue) → Option (JsValue × List Char)
  | 0, _, _ => none
  | fuel + 1, input, acc =>
    match skipWs input with
    | [] => none
    | q :: qs =>
      if q.toNat = 34 then
        match parseStringBody qs [] with
        | none => none
        | some (k, rest) =>
          match skipWs rest with
          | [] => none
          | c :: cs =>
            if c.toNat = 58 then
              match parseValue fuel cs with
              | none => none
              | some (v, rest2) =>
                match skipWs rest2 with
                | [] => none
                | d :: ds =>
                  if d.toNat = 44 then parseMembers fuel ds (setField k v acc)
                  else if d.toNat = 125 then some (JsValue.obj (setField k v acc), ds)
                  else none
            else none
      else none
end

/-- Modelled from the spec: `JSON.parse(text)`: one value, with nothing but
white space after it; `none` stands for the syntax error. -/
def JSONparse (text : String) : Option JsValue :=
  match parseValue (text.length + 1) text.toList with
  | some (v, rest) => if skipWs rest = [] then some v else none
  | none => none

/-- The glob list of a configuration value: its `content` property read as an
array of strings. -/
def contentOf (config : JsValue) : Option (List String) :=
  match config.getProp "content" with
  | some v => v.stringList
  | none => none

mutual
/-- Number of values and members in a value: a bound on the fuel that
`parseValue` needs to read the text of the value. -/
def JsValue.size : JsValue → Nat
  | JsValue.str _ => 1
  | JsValue.arr items => 1 + sizeItems items
  | JsValue.obj fields => 1 + sizeFields fields
/-- Number of values in a list of array elements, the elements included. -/
def sizeItems : List JsValue → Nat
  | [] => 0
  | v :: rest => 1 + v.size + sizeItems rest
/-- Number of values in a list of object members, the members included. -/
def sizeFields : List (String × JsValue) → Nat
  | [] => 0
  | (_, v) :: rest => 1 + v.size + sizeFields rest
end

mutual
/-- No object inside the value has two members with the same key (an object
literal or a JSON text with a repeated key keeps only the later value). -/
def JsValue.distinctKeys : JsValue → Prop
  | JsValue.str _ => True
  | JsValue.arr items => distinctKeysItems items
  | JsValue.obj fields => (fields.map Prod.fst).Nodup ∧ distinctKeysFields fields
/-- Every element of the list has distinct keys throughout. -/
def distinctKeysItems : List JsValue → Prop
  | [] => True
  | v :: rest => v.distinctKeys ∧ distinctKeysItems rest
/-- Every member value of the list has distinct keys throughout. -/
def distinctKeysFields : List (String × JsValue) → Prop
  | [] => True
  | (_, v) :: rest => v.distinctKeys ∧ distinctKeysFields rest
end

/-! ## Glob patterns

`tailwind.config.js` only lists the patterns; the tool that expands them is
not part of the repository.  The matcher below follows the glossary of the
specification: `**` stands for any number of directories, `*` for any run of
characters inside one path segment, and `{a,b}` for one of the alternatives;
every other character stands for itself.  Paths are written the way the
patterns are, relative to the project root with the leading `./`. -/

/-- Modelled from the spec: the pieces of a glob pattern (glossary: `**` for
recursive directories, `*` for any segment, `\x7ba,b\x7d` for alternation); no
glob engine is part of the repository. -/
inductive GlobToken where
  | lit : Char → GlobToken
  | star : GlobToken
  | globstar : GlobToken
  | alt : List (List Char) → GlobToken

/-- Modelled from the spec: splits a pattern into its pieces.  Outside braces
(`none`), `**/` is the directory wildcard, any other `*` the segment wildcard,
and an opening brace that is closed later starts an alternation.  Inside
braces (`some (alts, cur)`, both kept last first), a comma ends an alternative
and the closing brace ends the alternation; alternatives are plain text. -/
def tokenize : Option (List (List Char) × List Char) → List Char → List GlobToken
  | _, [] => []
  | some (alts, cur), c :: cs =>
    if c.toNat = 125 then GlobToken.alt (cur.reverse :: alts).reverse :: tokenize none cs
    else if c.toNat = 44 then tokenize (some (cur.reverse :: alts, [])) cs
    else tokenize (some (alts, c :: cur)) cs
  | none, c :: cs =>
    if c.toNat = 42 then
      let others := tokenize none cs
      match cs with
      | d :: e :: rest =>
        if d.toNat = 42 ∧ e.toNat = 47 then GlobToken.globstar :: tokenize none rest
        else GlobToken.star :: others
      | _ => GlobToken.star :: others
    else if c.toNat = 123 ∧ cs.any (fun d => d.toNat = 125) then tokenize (some ([], [])) cs
    else GlobToken.lit c :: tokenize none cs

/-- Modelled from the spec: what may remain of a path after `*` has taken a
run of characters of one segment (it never takes a `/`). -/
def starRests : List Char → List (List Char)
  | [] => [[]]
  | c :: cs => (c :: cs) :: (if c.toNat = 47 then [] else starRests cs)

/-- Modelled from the spec: the parts of a path that follow one of its
slashes. -/
def afterSlashes : List Char → List (List Char)
  | [] => []
  | c :: cs => if c.toNat = 47 then cs :: afterSlashes cs else afterSlashes cs

/-- Modelled from the spec: what may remain of a path after `**/` has taken
any number of whole directories, none included. -/
def globstarRests (path : List Char) : List (List Char) :=
  path :: afterSlashes path

/-- Modelled from the spec: removes the text `a` from the front of a path;
`none` when the path does not start with it. -/
def stripLiteral : List Char → List Char → Option (List Char)
  | [], path => some path
  | _ :: _, [] => none
  | a :: as, d :: ds => if a = d then stripLiteral as ds else none

/-- Modelled from the spec: whether the pieces of a pattern match a whole
path. -/
def globMatch : List GlobToken → List Char → Bool
  | [], path => path.isEmpty
  | GlobToken.lit c :: ts, path =>
    match path with
    | [] => false
    | d :: ds => decide (c = d) && globMatch ts ds
  | GlobToken.star :: ts, path => (starRests path).any fun r => globMatch ts r
  | GlobToken.globstar :: ts, path => (globstarRests path).any fun r => globMatch ts r
  | GlobToken.alt alts :: ts, path =>
    alts.any fun a =>
      match stripLiteral a path with
      | some r => globMatch ts r
      | none => false

/-- Modelled from the spec: whether the file at `path` is selected by the glob
`pattern`. -/
def selects (pattern path : String) : Bool :=
  globMatch (tokenize none pattern.toList) path.toList

/-- Modelled from the spec: whether the file at `path` is scanned, that is,
selected by one of the patterns of `content`. -/
def scanned (path : String) : Bool :=
  contentPatterns.any fun pattern => selects pattern path

/-- A path names an HTML or a JavaScript file: it ends with `.html` or with
`.js`. -/
def isHtmlOrJs (path : List Char) : Prop :=
  ".html".toList <:+ path ∨ ".js".toList <:+ path

/-! ## The reader inverts the writer

The lemmas below follow the reader through the text that the writer produces:
first one escaped character, then a quoted string, then values, array elements
and object members by simultaneous recursion on the value. -/

/-- The `\u00XX` escape that the writer emits for a control character names
that character again. -/
theorem unicodeEscape_control :
    ∀ n, n < 32 → unicodeEscape '0' '0' (hexDigit (n / 16)) (hexDigit (n % 16)) = some (Char.ofNat n) := by
  decide

/-- One step of the string reader over a one-letter escape. -/
theorem parseStringBody_simple (e u : Char) (rest acc : List Char)
    (he : e.toNat ≠ 117) (hs : simpleEscape e = some u) :
    parseStringBody (Char.ofNat 92 :: e :: rest) acc = parseStringBody rest (u :: acc) := by
  rw [parseStringBody.eq_def]
  simp [he, hs]

/-- One step of the string reader over a `\uXXXX` escape. -/
theorem parseStringBody_unicode (a b c d u : Char) (rest acc : List Char)
    (hs : unicodeEscape a b c d = some u) :
    parseStringBody (Char.ofNat 92 :: 'u' :: a :: b :: c :: d :: rest) acc
      = parseStringBody rest (u :: acc) := by
  rw [parseStringBody.eq_def]
  simp [hs]

/-- One step of the string reader over an unescaped character. -/
theorem parseStringBody_plain (c : Char) (rest acc : List Char)
    (h1 : c.toNat ≠ 34) (h2 : c.toNat ≠ 92) (h3 : ¬ c.toNat < 32) :
    parseStringBody (c :: rest) acc = parseStringBody rest (c :: acc) := by
  rw [parseStringBody.eq_def]
  simp [h1, h2, h3]

/-- The string reader consumes the escape of a character and records the
character. -/
theorem parseStringBody_quoteChar (c : Char) (rest acc : List Char) :
    parseStringBody (quoteChar c ++ rest) acc = parseStringBody rest (c :: acc) := by
  have hc : Char.ofNat c.toNat = c := Char.ofNat_toNat c
  unfold quoteChar
  simp only []
  split_ifs with h1 h2 h3 h4 h5 h6 h7 h8
  · rw [← hc, h1]; exact parseStringBody_simple _ _ _ _ (by decide) (by decide)
  · rw [← hc, h2]; exact parseStringBody_simple _ _ _ _ (by decide) (by decide)
  · rw [← hc, h3]; exact parseStringBody_simple _ _ _ _ (by decide) (by decide)
  · rw [← hc, h4]; exact parseStringBody_simple _ _ _ _ (by decide) (by decide)
  · rw [← hc, h5]; exact parseStringBody_simple _ _ _ _ (by decide) (by decide)
  · rw [← hc, h6]; exact parseStringBody_simple _ _ _ _ (by decide) (by decide)
  · rw [← hc, h7]; exact parseStringBody_simple _ _ _ _ (by decide) (by decide)
  · have hu := unicodeEscape_control c.toNat h8
    rw [hc] at hu
    exact parseStringBody_unicode _ _ _ _ _ _ _ hu
  · exact parseStringBody_plain _ _ _ h1 h2 h8

/-- The string reader consumes escaped characters up to the closing quote. -/
theorem parseStringBody_flatMap (cs rest acc : List Char) :
    parseStringBody (cs.flatMap quoteChar ++ Char.ofNat 34 :: rest) acc
      = some (String.mk (acc.reverse ++ cs), rest) := by
  induction cs generalizing acc with
  | nil =>
    rw [parseStringBody.eq_def]
    simp
  | cons c cs ih =>
    rw [List.flatMap_cons, List.append_assoc, parseStringBody_quoteChar, ih]
    simp

/-- The text of a quoted string followed by `rest`, without its opening
quote. -/
theorem quoteJSONString_append (s : String) (rest : List Char) :
    quoteJSONString s ++ rest
      = Char.ofNat 34 :: (s.toList.flatMap quoteChar ++ Char.ofNat 34 :: rest) := by
  simp [quoteJSONString]

/-- Reading the body of a quoted string returns the string. -/
theorem parseStringBody_quoted (s : String) (rest : List Char) :
    parseStringBody (s.toList.flatMap quoteChar ++ Char.ofNat 34 :: rest) [] = some (s, rest) := by
  rw [parseStringBody_flatMap]
  simp

/-- Nothing is skipped in front of a character that is not white space. -/
theorem skipWs_cons (c : Char) (cs : List Char)
    (h : ¬ (c.toNat = 32 ∨ c.toNat = 9 ∨ c.toNat = 10 ∨ c.toNat = 13)) :
    skipWs (c :: cs) = c :: cs := by
  rw [skipWs]
  simp only [h, if_false]

/-- A value's text starts with a quote, an opening bracket or an opening
brace. -/
theorem stringify_head (v : JsValue) :
    ∃ c tl, stringify v = c :: tl ∧ (c.toNat = 34 ∨ c.toNat = 91 ∨ c.toNat = 123) := by
  cases v with
  | str s => exact ⟨_, _, by rw [stringify, quoteJSONString], Or.inl (by decide)⟩
  | arr items => exact ⟨_, _, by rw [stringify], Or.inr (Or.inl (by decide))⟩
  | obj fields => exact ⟨_, _, by rw [stringify], Or.inr (Or.inr (by decide))⟩

/-- The text of a one-element list of array elements. -/
theorem stringifyItems_singleton (v : JsValue) : stringifyItems [v] = stringify v := by
  rw [stringifyItems]

/-- The text of a list of at least two array elements. -/
theorem stringifyItems_cons_cons (v w : JsValue) (ws : List JsValue) :
    stringifyItems (v :: w :: ws) = stringify v ++ ',' :: stringifyItems (w :: ws) := by
  rw [stringifyItems]
  simp

/-- The text of a one-member list of object members. -/
theorem stringifyFields_singleton (k : String) (v : JsValue) :
    stringifyFields [(k, v)] = quoteJSONString k ++ ':' :: stringify v := by
  rw [stringifyFields]

/-- The text of a list of at least two object members. -/
theorem stringifyFields_cons_cons (k : String) (v : JsValue) (w : String × JsValue)
    (ws : List (String × JsValue)) :
    stringifyFields ((k, v) :: w :: ws)
      = quoteJSONString k ++ ':' :: stringify v ++ ',' :: stringifyFields (w :: ws) := by
  rw [stringifyFields]
  simp

/-- The text of a non-empty list of elements starts like the text of a value. -/
theorem stringifyItems_head (v : JsValue) (vs : List JsValue) :
    ∃ c tl, stringifyItems (v :: vs) = c :: tl ∧ (c.toNat = 34 ∨ c.toNat = 91 ∨ c.toNat = 123) := by
  obtain ⟨c, tl, h, hc⟩ := stringify_head v
  cases vs with
  | nil => exact ⟨c, tl, by rw [stringifyItems_singleton, h], hc⟩
  | cons w ws => exact ⟨c, _, by rw [stringifyItems_cons_cons, h, List.cons_append], hc⟩

/-- The text of a non-empty list of members starts with the quote of a key. -/
theorem stringifyFields_head (kv : String × JsValue) (fs : List (String × JsValue)) :
    ∃ tl, stringifyFields (kv :: fs) = Char.ofNat 34 :: tl := by
  obtain ⟨k, v⟩ := kv
  cases fs with
  | nil => exact ⟨_, by rw [stringifyFields_singleton, quoteJSONString_append]⟩
  | cons w ws =>
    exact ⟨_, by rw [stringifyFields_cons_cons, quoteJSONString_append, List.cons_append]⟩

/-- Defining a key that is not present appends the member. -/
theorem setField_append (k : String) (v : JsValue) (acc : List (String × JsValue))
    (h : k ∉ acc.map Prod.fst) : setField k v acc = acc ++ [(k, v)] := by
  induction acc with
  | nil => rfl
  | cons kv acc ih =>
    obtain ⟨k1, v1⟩ := kv
    simp only [List.map_cons, List.mem_cons, not_or] at h
    rw [setField, if_neg (fun e => h.1 e.symm), ih h.2]
    rfl

/-- The reader on a quoted string. -/
theorem parseValue_string (fuel : Nat) (s : String) (rest : List Char) :
    parseValue (fuel + 1) (quoteJSONString s ++ rest) = some (JsValue.str s, rest) := by
  rw [quoteJSONString_append, parseValue, skipWs_cons _ _ (by decide)]
  simp only []
  rw [if_pos (by decide), parseStringBody_quoted]

/-- The reader on the empty array. -/
theorem parseValue_arr_nil (fuel : Nat) (rest : List Char) :
    parseValue (fuel + 1) ('[' :: ']' :: rest) = some (JsValue.arr [], rest) := by
  rw [parseValue, skipWs_cons _ _ (by decide)]
  simp only []
  rw [if_neg (by decide), if_pos (by decide), skipWs_cons _ _ (by decide)]
  simp only []
  rw [if_pos (by decide)]

/-- The reader on the empty object. -/
theorem parseValue_obj_nil (fuel : Nat) (rest : List Char) :
    parseValue (fuel + 1) (Char.ofNat 123 :: Char.ofNat 125 :: rest) = some (JsValue.obj [], rest) := by
  rw [parseValue, skipWs_cons _ _ (by decide)]
  simp only []
  rw [if_neg (by decide), if_neg (by decide), if_pos (by decide), skipWs_cons _ _ (by decide)]
  simp only []
  rw [if_pos (by decide)]

/-- The reader on a non-empty array hands over to `parseElements`. -/
theorem parseValue_arr_cons (fuel : Nat) (c : Char) (cs : List Char)
    (hc : c.toNat = 34 ∨ c.toNat = 91 ∨ c.toNat = 123) :
    parseValue (fuel + 1) ('[' :: c :: cs) = parseElements fuel (c :: cs) [] := by
  rw [parseValue, skipWs_cons _ _ (by decide)]
  simp only []
  rw [if_neg (by decide), if_pos (by decide), skipWs_cons _ _ (by omega)]
  simp only []
  rw [if_neg (by omega)]

/-- The reader on a non-empty object hands over to `parseMembers`. -/
theorem parseValue_obj_cons (fuel : Nat) (cs : List Char) :
    parseValue (fuel + 1) (Char.ofNat 123 :: Char.ofNat 34 :: cs)
      = parseMembers fuel (Char.ofNat 34 :: cs) [] := by
  rw [parseValue, skipWs_cons _ _ (by decide)]
  simp only []
  rw [if_neg (by decide), if_neg (by decide), if_pos (by decide), skipWs_cons _ _ (by decide)]
  simp only []
  rw [if_neg (by decide)]

/-- The element reader at the last element of an array. -/
theorem parseElements_last (fuel : Nat) (input rest : List Char) (v : JsValue)
    (acc : List JsValue) (h : parseValue fuel input = some (v, ']' :: rest)) :
    parseElements (fuel + 1) input acc = some (JsValue.arr (acc.reverse ++ [v]), rest) := by
  rw [parseElements, h]
  simp only []
  rw [skipWs_cons _ _ (by decide)]
  simp only []
  rw [if_neg (by decide), if_pos (by decide), List.reverse_cons]

/-- The element reader at an element that is followed by a comma. -/
theorem parseElements_more (fuel : Nat) (input rest : List Char) (v : JsValue)
    (acc : List JsValue) (h : parseValue fuel input = some (v, ',' :: rest)) :
    parseElements (fuel + 1) input acc = parseElements fuel rest (v :: acc) := by
  rw [parseElements, h]
  simp only []
  rw [skipWs_cons _ _ (by decide)]
  simp only []
  rw [if_pos (by decide)]

/-- The member reader at the last member of an object. -/
theorem parseMembers_last (fuel : Nat) (k : String) (cs rest : List Char) (v : JsValue)
    (acc : List (String × JsValue))
    (h : parseValue fuel cs = some (v, Char.ofNat 125 :: rest)) :
    parseMembers (fuel + 1) (quoteJSONString k ++ ':' :: cs) acc
      = some (JsValue.obj (setField k v acc), rest) := by
  rw [quoteJSONString_append, parseMembers, skipWs_cons _ _ (by decide)]
  simp only []
  rw [if_pos (by decide), parseStringBody_quoted]
  simp only []
  rw [skipWs_cons _ _ (by decide)]
  simp only []
  rw [if_pos (by decide), h]
  simp only []
  rw [skipWs_cons _ _ (by decide)]
  simp only []
  rw [if_neg (by decide), if_pos (by decide)]

/-- The member reader at a member that is followed by a comma. -/
theorem parseMembers_more (fuel : Nat) (k : String) (cs rest : List Char) (v : JsValue)
    (acc : List (String × JsValue))
    (h : parseValue fuel cs = some (v, ',' :: rest)) :
    parseMembers (fuel + 1) (quoteJSONString k ++ ':' :: cs) acc
      = parseMembers fuel rest (setField k v acc) := by
  rw [quoteJSONString_append, parseMembers, skipWs_cons _ _ (by decide)]
  simp only []
  rw [if_pos (by decide), parseStringBody_quoted]
  simp only []
  rw [skipWs_cons _ _ (by decide)]
  simp only []
  rw [if_pos (by decide), h]
  simp only []
  rw [skipWs_cons _ _ (by decide)]
  simp only []
  rw [if_pos (by decide)]

mutual
/-- Reading the text of a value with distinct keys, followed by any text
`rest`, returns the value and leaves `rest`, whenever the fuel is at least the
size of the value. -/
theorem parseValue_stringify : ∀ (v : JsValue), v.distinctKeys →
    ∀ (fuel : Nat) (rest : List Char), v.size ≤ fuel →
      parseValue fuel (stringify v ++ rest) = some (v, rest)
  | JsValue.str s => by
    intro _ fuel rest hf
    rw [JsValue.size] at hf
    obtain ⟨f, rfl⟩ : ∃ f, fuel = f + 1 := ⟨fuel - 1, by omega⟩
    rw [stringify]
    exact parseValue_string f s rest
  | JsValue.arr items => by
    intro hk fuel rest hf
    rw [JsValue.size] at hf
    rw [JsValue.distinctKeys] at hk
    obtain ⟨f, rfl⟩ : ∃ f, fuel = f + 1 := ⟨fuel - 1, by omega⟩
    have hf2 : sizeItems items ≤ f := by omega
    have ih := parseElements_stringifyItems items
    cases items with
    | nil =>
      rw [stringify, stringifyItems]
      exact parseValue_arr_nil f rest
    | cons v vs =>
      have e : stringify (JsValue.arr (v :: vs)) ++ rest
          = '[' :: (stringifyItems (v :: vs) ++ ']' :: rest) := by
        rw [stringify]; simp
      obtain ⟨c, tl, hhd, hc⟩ := stringifyItems_head v vs
      rw [e]
      have ih2 := ih (by simp) hk f rest [] hf2
      rw [hhd, List.cons_append] at ih2 ⊢
      rw [parseValue_arr_cons f c _ hc, ih2]
      simp
  | JsValue.obj fields => by
    intro hk fuel rest hf
    rw [JsValue.size] at hf
    rw [JsValue.distinctKeys] at hk
    obtain ⟨f, rfl⟩ : ∃ f, fuel = f + 1 := ⟨fuel - 1, by omega⟩
    have hf2 : sizeFields fields ≤ f := by omega
    have ih := parseMembers_stringifyFields fields
    cases fields with
    | nil =>
      rw [stringify, stringifyFields]
      exact parseValue_obj_nil f rest
    | cons kv fs =>
      have e : stringify (JsValue.obj (kv :: fs)) ++ rest
          = Char.ofNat 123 :: (stringifyFields (kv :: fs) ++ Char.ofNat 125 :: rest) := by
        rw [stringify]; simp
      obtain ⟨tl, hhd⟩ := stringifyFields_head kv fs
      rw [e]
      have ih2 := ih (by simp) hk.2 f rest [] (by simpa using hk.1) hf2
      rw [hhd, List.cons_append] at ih2 ⊢
      rw [parseValue_obj_cons f _, ih2]
      simp
/-- Reading the elements of a non-empty array after `acc` has been read. -/
theorem parseElements_stringifyItems : ∀ (items : List JsValue), items ≠ [] →
    distinctKeysItems items →
    ∀ (fuel : Nat) (rest : List Char) (acc : List JsValue), sizeItems items ≤ fuel →
      parseElements fuel (stringifyItems items ++ ']' :: rest) acc
        = some (JsValue.arr (acc.reverse ++ items), rest)
  | [] => by
    intro h
    exact absurd rfl h
  | [v] => by
    intro _ hk fuel rest acc hf
    rw [sizeItems, sizeItems] at hf
    rw [distinctKeysItems] at hk
    obtain ⟨f, rfl⟩ : ∃ f, fuel = f + 1 := ⟨fuel - 1, by omega⟩
    rw [stringifyItems_singleton]
    exact parseElements_last f _ rest v acc
      (parseValue_stringify v hk.1 f _ (by omega))
  | v :: w :: ws => by
    intro _ hk fuel rest acc hf
    rw [sizeItems] at hf
    rw [distinctKeysItems] at hk
    obtain ⟨f, rfl⟩ : ∃ f, fuel = f + 1 := ⟨fuel - 1, by omega⟩
    rw [stringifyItems_cons_cons, List.append_assoc, List.cons_append,
      parseElements_more f _ _ v acc (parseValue_stringify v hk.1 f _ (by omega)),
      parseElements_stringifyItems (w :: ws) (by simp) hk.2 f rest (v :: acc) (by omega)]
    simp
/-- Reading the members of a non-empty object after `acc` has been read. -/
theorem parseMembers_stringifyFields : ∀ (fields : List (String × JsValue)), fields ≠ [] →
    distinctKeysFields fields →
    ∀ (fuel : Nat) (rest : List Char) (acc : List (String × JsValue)),
      ((acc ++ fields).map Prod.fst).Nodup → sizeFields fields ≤ fuel →
      parseMembers fuel (stringifyFields fields ++ Char.ofNat 125 :: rest) acc
        = some (JsValue.obj (acc ++ fields), rest)
  | [] => by
    intro h
    exact absurd rfl h
  | [(k, v)] => by
    intro _ hk fuel rest acc hn hf
    rw [sizeFields, sizeFields] at hf
    rw [distinctKeysFields] at hk
    obtain ⟨f, rfl⟩ : ∃ f, fuel = f + 1 := ⟨fuel - 1, by omega⟩
    have hnot : k ∉ acc.map Prod.fst := by
      rw [List.map_append, List.nodup_append] at hn
      intro hmem
      exact hn.2.2 hmem (by simp)
    rw [stringifyFields_singleton, List.append_assoc, List.cons_append,
      parseMembers_last f k _ rest v acc (parseValue_stringify v hk.1 f _ (by omega)),
      setField_append k v acc hnot]
  | (k, v) :: w :: ws => by
    intro _ hk fuel rest acc hn hf
    rw [sizeFields] at hf
    rw [distinctKeysFields] at hk
    obtain ⟨f, rfl⟩ : ∃ f, fuel = f + 1 := ⟨fuel - 1, by omega⟩
    have hnot : k ∉ acc.map Prod.fst := by
      rw [List.map_append, List.nodup_append] at hn
      intro hmem
      exact hn.2.2 hmem (by simp)
    have hn2 : (((acc ++ [(k, v)]) ++ w :: ws).map Prod.fst).Nodup := by
      simpa using hn
    have e : stringifyFields ((k, v) :: w :: ws) ++ Char.ofNat 125 :: rest
        = quoteJSONString k ++ ':' :: (stringify v
            ++ ',' :: (stringifyFields (w :: ws) ++ Char.ofNat 125 :: rest)) := by
      rw [stringifyFields_cons_cons]; simp
    rw [e, parseMembers_more f k _ _ v acc (parseValue_stringify v hk.1 f _ (by omega)),
      setField_append k v acc hnot,
      parseMembers_stringifyFields (w :: ws) (by simp) hk.2 f rest _ hn2 (by omega)]
    simp
end

mutual
/-- The size of a value is at most the length of its text. -/
theorem size_le_length : ∀ v : JsValue, v.size ≤ (stringify v).length
  | JsValue.str s => by
    simp [JsValue.size, stringify, quoteJSONString]
  | JsValue.arr items => by
    have := sizeItems_le_length items
    simp [JsValue.size, stringify]
    omega
  | JsValue.obj fields => by
    have := sizeFields_le_length fields
    simp [JsValue.size, stringify]
    omega
/-- The size of a list of elements is at most the length of its text plus one. -/
theorem sizeItems_le_length :
    ∀ items : List JsValue, sizeItems items ≤ (stringifyItems items).length + 1
  | [] => by simp [sizeItems]
  | [v] => by
    have := size_le_length v
    simp [sizeItems, stringifyItems]
    omega
  | v :: w :: rest => by
    have := size_le_length v
    have := sizeItems_le_length (w :: rest)
    simp [sizeItems, stringifyItems] at *
    omega
/-- The size of a list of members is at most the length of its text plus one. -/
theorem sizeFields_le_length :
    ∀ fields : List (String × JsValue), sizeFields fields ≤ (stringifyFields fields).length + 1
  | [] => by simp [sizeFields]
  | [(k, v)] => by
    have := size_le_length v
    simp [sizeFields, stringifyFields]
    omega
  | (k, v) :: w :: rest => by
    have := size_le_length v
    have := sizeFields_le_length (w :: rest)
    simp [sizeFields, stringifyFields] at *
    omega
end

/-- The reader inverts the writer: for every value whose objects have distinct
keys, `JSONparse (JSONstringify v)` returns `v`. -/
theorem JSONparse_JSONstringify (v : JsValue) (hk : v.distinctKeys) :
    JSONparse (JSONstringify v) = some v := by
  have h := parseValue_stringify v hk ((stringify v).length + 1) [] (by
    have := size_le_length v
    omega)
  rw [List.append_nil] at h
  rw [JSONparse, JSONstringify]
  simp only [String.length, String.toList]
  rw [h]
  simp [skipWs]

/-! ## Files selected by the patterns

A pattern whose last pieces force the path to end with `.html` or `.js`
selects only such paths, whatever pieces come before: every piece takes a
front part of the path and leaves the rest to the pieces after it. -/

/-- What `*` leaves is the end of the path. -/
theorem starRests_suffix (path r : List Char) (h : r ∈ starRests path) : r <:+ path := by
  induction path with
  | nil =>
    simp only [starRests, List.mem_singleton] at h
    rw [h]
  | cons c cs ih =>
    rw [starRests, List.mem_cons] at h
    rcases h with h | h
    · rw [h]
    · by_cases hc : c.toNat = 47
      · simp [hc] at h
      · rw [if_neg hc] at h
        exact (ih h).trans (List.suffix_cons c cs)

/-- What follows a slash is the end of the path. -/
theorem afterSlashes_suffix (path r : List Char) (h : r ∈ afterSlashes path) : r <:+ path := by
  induction path with
  | nil => simp [afterSlashes] at h
  | cons c cs ih =>
    rw [afterSlashes] at h
    by_cases hc : c.toNat = 47
    · rw [if_pos hc, List.mem_cons] at h
      rcases h with h | h
      · rw [h]; exact List.suffix_cons c cs
      · exact (ih h).trans (List.suffix_cons c cs)
    · rw [if_neg hc] at h
      exact (ih h).trans (List.suffix_cons c cs)

/-- What `**/` leaves is the end of the path. -/
theorem globstarRests_suffix (path r : List Char) (h : r ∈ globstarRests path) :
    r <:+ path := by
  rw [globstarRests, List.mem_cons] at h
  rcases h with h | h
  · rw [h]
  · exact afterSlashes_suffix path r h

/-- Removing a text from the front of a path leaves the rest of the path. -/
theorem stripLiteral_eq (a path r : List Char) (h : stripLiteral a path = some r) :
    path = a ++ r := by
  induction a generalizing path with
  | nil =>
    rw [stripLiteral] at h
    simp only [Option.some.injEq] at h
    rw [h, List.nil_append]
  | cons x xs ih =>
    cases path with
    | nil => simp [stripLiteral] at h
    | cons d ds =>
      rw [stripLiteral] at h
      by_cases hx : x = d
      · rw [if_pos hx] at h
        rw [hx, ih ds h, List.cons_append]
      · rw [if_neg hx] at h
        exact absurd h (by simp)

/-- A path that ends with the name of an HTML or JavaScript file is one. -/
theorem isHtmlOrJs_of_suffix (path r : List Char) (hs : r <:+ path) (hr : isHtmlOrJs r) :
    isHtmlOrJs path := by
  rcases hr with h | h
  · exact Or.inl (h.trans hs)
  · exact Or.inr (h.trans hs)

/-- The pieces in front of a pattern's ending do not widen what it selects:
if the ending `tail` matches only HTML and JavaScript files, so does
`ts ++ tail`. -/
theorem globMatch_append (tail : List GlobToken)
    (htail : ∀ path, globMatch tail path = true → isHtmlOrJs path) (ts : List GlobToken) :
    ∀ path, globMatch (ts ++ tail) path = true → isHtmlOrJs path := by
  induction ts with
  | nil => exact htail
  | cons t ts ih =>
    intro path h
    cases t with
    | lit c =>
      cases path with
      | nil => simp [globMatch] at h
      | cons d ds =>
        simp only [List.cons_append, globMatch, Bool.and_eq_true] at h
        exact isHtmlOrJs_of_suffix _ _ (List.suffix_cons d ds) (ih ds h.2)
    | star =>
      simp only [List.cons_append, globMatch, List.any_eq_true] at h
      obtain ⟨r, hr, hm⟩ := h
      exact isHtmlOrJs_of_suffix _ _ (starRests_suffix path r hr) (ih r hm)
    | globstar =>
      simp only [List.cons_append, globMatch, List.any_eq_true] at h
      obtain ⟨r, hr, hm⟩ := h
      exact isHtmlOrJs_of_suffix _ _ (globstarRests_suffix path r hr) (ih r hm)
    | alt alts =>
      simp only [List.cons_append, globMatch, List.any_eq_true] at h
      obtain ⟨a, _, hm⟩ := h
      cases hs : stripLiteral a path with
      | none => rw [hs] at hm; exact absurd hm (by simp)
      | some r =>
        rw [hs] at hm
        have e := stripLiteral_eq a path r hs
        exact isHtmlOrJs_of_suffix _ _ ⟨a, e.symm⟩ (ih r hm)

/-- Literal pieces match exactly their own text. -/
theorem globMatch_lits (cs path : List Char)
    (h : globMatch (cs.map GlobToken.lit) path = true) : path = cs := by
  induction cs generalizing path with
  | nil =>
    cases path with
    | nil => rfl
    | cons d ds => simp [globMatch] at h
  | cons c cs ih =>
    cases path with
    | nil => simp [globMatch] at h
    | cons d ds =>
      simp only [List.map_cons, globMatch, Bool.and_eq_true, decide_eq_true_eq] at h
      rw [h.1, ih ds h.2]

/-- The ending `.html` matches only the text `.html`. -/
theorem globMatch_html (path : List Char)
    (h : globMatch (".html".toList.map GlobToken.lit) path = true) : isHtmlOrJs path := by
  rw [globMatch_lits _ _ h]
  exact Or.inl (List.suffix_refl _)

/-- The ending `.js` matches only the text `.js`. -/
theorem globMatch_js (path : List Char)
    (h : globMatch (".js".toList.map GlobToken.lit) path = true) : isHtmlOrJs path := by
  rw [globMatch_lits _ _ h]
  exact Or.inr (List.suffix_refl _)

/-- The ending `.{html,js}` matches only the texts `.html` and `.js`. -/
theorem globMatch_html_js (path : List Char)
    (h : globMatch [GlobToken.lit '.', GlobToken.alt ["html".toList, "js".toList]] path = true) :
    isHtmlOrJs path := by
  cases path with
  | nil => simp [globMatch] at h
  | cons d ds =>
    simp only [globMatch, Bool.and_eq_true, decide_eq_true_eq, List.any_cons, List.any_nil,
      Bool.or_false, Bool.or_eq_true] at h
    obtain ⟨hd, h⟩ := h
    rcases h with h | h
    · cases hs : stripLiteral "html".toList ds with
      | none => rw [hs] at h; exact absurd h (by simp)
      | some r =>
        rw [hs] at h
        have e := stripLiteral_eq _ _ _ hs
        cases r with
        | nil =>
          left
          rw [← hd, e]
          exact List.suffix_refl _
        | cons x xs => simp [List.isEmpty] at h
    · cases hs : stripLiteral "js".toList ds with
      | none => rw [hs] at h; exact absurd h (by simp)
      | some r =>
        rw [hs] at h
        have e := stripLiteral_eq _ _ _ hs
        cases r with
        | nil =>
          right
          rw [← hd, e]
          exact List.suffix_refl _
        | cons x xs => simp [List.isEmpty] at h

set_option maxRecDepth 100000

/-- The pieces of the four patterns of `content`, each as the pieces in front
followed by the ending that fixes the file type. -/
theorem tokenize_contentPatterns :
    tokenize none "./templates/**/*.html".toList
      = ("./templates/".toList.map GlobToken.lit ++ [GlobToken.globstar, GlobToken.star])
          ++ ".html".toList.map GlobToken.lit
    ∧ tokenize none "./static/**/*.js".toList
      = ("./static/".toList.map GlobToken.lit ++ [GlobToken.globstar, GlobToken.star])
          ++ ".js".toList.map GlobToken.lit
    ∧ tokenize none "./main/**/*.\x7bhtml,js\x7d".toList
      = ("./main/".toList.map GlobToken.lit ++ [GlobToken.globstar, GlobToken.star])
          ++ [GlobToken.lit '.', GlobToken.alt ["html".toList, "js".toList]]
    ∧ tokenize none "./*.\x7bhtml,js\x7d".toList
      = ("./".toList.map GlobToken.lit ++ [GlobToken.star])
          ++ [GlobToken.lit '.', GlobToken.alt ["html".toList, "js".toList]] :=
  ⟨rfl, rfl, rfl, rfl⟩

/-- Every file selected by a pattern of `content` is an HTML or a JavaScript
file. -/
theorem selects_isHtmlOrJs (pattern path : String) (hp : pattern ∈ contentPatterns)
    (h : selects pattern path = true) : isHtmlOrJs path.toList := by
  have hmem : pattern = "./templates/**/*.html" ∨ pattern = "./static/**/*.js"
      ∨ pattern = "./main/**/*.\x7bhtml,js\x7d" ∨ pattern = "./*.\x7bhtml,js\x7d" := by
    have e : contentPatterns = ["./templates/**/*.html", "./static/**/*.js",
        "./main/**/*.\x7bhtml,js\x7d", "./*.\x7bhtml,js\x7d"] := by decide
    rw [e] at hp
    simpa using hp
  obtain ⟨t1, t2, t3, t4⟩ := tokenize_contentPatterns
  rw [selects] at h
  rcases hmem with e | e | e | e
  · rw [e, t1] at h
    exact globMatch_append _ globMatch_html _ _ h
  · rw [e, t2] at h
    exact globMatch_append _ globMatch_js _ _ h
  · rw [e, t3] at h
    exact globMatch_append _ globMatch_html_js _ _ h
  · rw [e, t4] at h
    exact globMatch_append _ globMatch_html_js _ _ h

/-! ## The exported configuration -/

/-- The escapes `\x7b` and `\x7d` in the embedded patterns are the opening and
the closing brace (code points 123 and 125). -/
theorem brace_escapes :
    "\x7bhtml,js\x7d".toList = [Char.ofNat 123, 'h', 't', 'm', 'l', ',', 'j', 's', Char.ofNat 125] := by
  decide

/-- The glob list has no repeated entry. -/
theorem contentPatterns_nodup : contentPatterns.Nodup := by
  decide

/-- No object of the exported configuration repeats a key. -/
theorem module_exports_distinctKeys : module_exports.distinctKeys := by
  simp [module_exports, JsValue.distinctKeys, distinctKeysFields, distinctKeysItems]

/-- The matcher on sample paths: each pattern selects files of its kind at any
depth it allows, and files of another kind or place are not scanned. -/
theorem selects_examples :
    selects "./templates/**/*.html" "./templates/index.html" = true
    ∧ selects "./templates/**/*.html" "./templates/rooms/list/index.html" = true
    ∧ selects "./static/**/*.js" "./static/js/app.js" = true
    ∧ selects "./main/**/*.\x7bhtml,js\x7d" "./main/views/home.js" = true
    ∧ selects "./main/**/*.\x7bhtml,js\x7d" "./main/home.html" = true
    ∧ selects "./*.\x7bhtml,js\x7d" "./index.html" = true
    ∧ selects "./*.\x7bhtml,js\x7d" "./sub/index.html" = false
    ∧ selects "./static/**/*.js" "./static/css/site.css" = false
    ∧ scanned "./tailwind.config.js" = true
    ∧ scanned "./README.md" = false
    ∧ scanned "./static/css/site.css" = false := by
  decide

/-- C1: `module.exports.content` is exactly the ordered list of the four
patterns `./templates/**/*.html`, `./static/**/*.js`, `./main/**/*.{html,js}`,
`./*.{html,js}`: it has length 4 and its entries agree with the literals
character for character (the braces are the code points 123 and 125). -/
theorem content_eq_four_patterns :
    content = some ["./templates/**/*.html", "./static/**/*.js",
        "./main/**/*.\x7bhtml,js\x7d", "./*.\x7bhtml,js\x7d"]
    ∧ contentPatterns.length = 4
    ∧ contentPatterns.map String.toList =
      [ ['.', '/', 't', 'e', 'm', 'p', 'l', 'a', 't', 'e', 's', '/', '*', '*', '/', '*',
          '.', 'h', 't', 'm', 'l'],
        ['.', '/', 's', 't', 'a', 't', 'i', 'c', '/', '*', '*', '/', '*', '.', 'j', 's'],
        ['.', '/', 'm', 'a', 'i', 'n', '/', '*', '*', '/', '*', '.', Char.ofNat 123,
          'h', 't', 'm', 'l', ',', 'j', 's', Char.ofNat 125],
        ['.', '/', '*', '.', Char.ofNat 123, 'h', 't', 'm', 'l', ',', 'j', 's',
          Char.ofNat 125] ] := by
  refine ⟨by decide, by decide, by decide⟩

/-- C2: `module.exports.plugins` is the empty array. -/
theorem plugins_empty :
    plugins = some [] ∧ plugins.map List.length = some 0 := by
  exact ⟨rfl, rfl⟩

/-- C3: `module.exports.theme.extend` is an object without any property. -/
theorem extend_empty :
    extend = some (JsValue.obj []) ∧ extend.map JsValue.keys = some [] := by
  exact ⟨rfl, rfl⟩

/-- C4, as stated, fails: the object stored under `theme` is not the empty
object, it has a property. -/
theorem theme_not_empty_mapping : theme ≠ some (JsValue.obj []) := by
  intro h
  have hk : theme.map JsValue.keys = some [] := by rw [h]; rfl
  revert hk
  decide

/-- C4, amended: the object stored under `theme` has exactly one property,
`extend`, and the value of that property is the empty object. -/
theorem theme_only_extend :
    theme = some (JsValue.obj [("extend", JsValue.obj [])])
    ∧ theme.map JsValue.keys = some ["extend"]
    ∧ (theme.bind fun t => t.getProp "extend") = some (JsValue.obj []) := by
  exact ⟨rfl, by decide, rfl⟩

/-- C5: the exported object has exactly the three properties `content`,
`theme` and `plugins`, in this order, and a property access with any other
name finds nothing. -/
theorem module_exports_three_fields :
    module_exports.keys = ["content", "theme", "plugins"]
    ∧ module_exports.keys.length = 3
    ∧ ∀ k : String, (module_exports.getProp k).isSome = true ↔
        (k = "content" ∨ k = "theme" ∨ k = "plugins") := by
  refine ⟨by decide, by decide, ?_⟩
  intro k
  by_cases h1 : k = "content"
  · subst h1; exact ⟨fun _ => Or.inl rfl, fun _ => rfl⟩
  · by_cases h2 : k = "theme"
    · subst h2; exact ⟨fun _ => Or.inr (Or.inl rfl), fun _ => rfl⟩
    · by_cases h3 : k = "plugins"
      · subst h3; exact ⟨fun _ => Or.inr (Or.inr rfl), fun _ => rfl⟩
      · have b1 : (k == "content") = false := beq_eq_false_iff_ne.mpr h1
        have b2 : (k == "theme") = false := beq_eq_false_iff_ne.mpr h2
        have b3 : (k == "plugins") = false := beq_eq_false_iff_ne.mpr h3
        simp [module_exports, JsValue.getProp, List.lookup, h1, h2, h3, b1, b2, b3]

/-- C6: writing the exported configuration as JSON text and reading the text
back returns a value, that value is the exported configuration itself, and
its `content` list is the original list of four patterns, in order. -/
theorem content_round_trip :
    JSONparse (JSONstringify module_exports) = some module_exports
    ∧ (JSONparse (JSONstringify module_exports)).bind contentOf =
        some ["./templates/**/*.html", "./static/**/*.js",
          "./main/**/*.\x7bhtml,js\x7d", "./*.\x7bhtml,js\x7d"]
    ∧ (JSONparse (JSONstringify module_exports)).bind contentOf = content := by
  refine ⟨JSONparse_JSONstringify module_exports module_exports_distinctKeys,
    by decide, by decide⟩

/-- C7: every pattern of `content` starts with `./` and ends with `.html`,
with `.js` or with `.{html,js}`, so that every file the pattern selects is an
HTML or a JavaScript file (its path ends with `.html` or `.js`), and hence so
is every file that is scanned. -/
theorem content_patterns_shape (p : String) (hp : p ∈ contentPatterns) :
    "./".toList <+: p.toList
    ∧ (".html".toList <:+ p.toList ∨ ".js".toList <:+ p.toList
        ∨ ".\x7bhtml,js\x7d".toList <:+ p.toList)
    ∧ (∀ path : String, selects p path = true → isHtmlOrJs path.toList)
    ∧ (∀ path : String, scanned path = true → isHtmlOrJs path.toList) := by
  refine ⟨?_, ?_, fun path h => selects_isHtmlOrJs p path hp h, ?_⟩
  · revert p
    decide
  · revert p
    decide
  · intro path h
    rw [scanned, List.any_eq_true] at h
    obtain ⟨q, hq, hsel⟩ := h
    exact selects_isHtmlOrJs q path hq hsel

/-- C7 at the second pattern and the file `./static/js/app.js`, which the
pattern selects. -/
theorem content_patterns_shape_witness :
    "./static/**/*.js" ∈ contentPatterns
    ∧ selects "./static/**/*.js" "./static/js/app.js" = true
    ∧ scanned "./static/js/app.js" = true
    ∧ "./".toList <+: "./static/**/*.js".toList
    ∧ (".html".toList <:+ "./static/**/*.js".toList
        ∨ ".js".toList <:+ "./static/**/*.js".toList
        ∨ ".\x7bhtml,js\x7d".toList <:+ "./static/**/*.js".toList)
    ∧ isHtmlOrJs "./static/js/app.js".toList :=
  ⟨by decide, by decide, by decide,
    (content_patterns_shape "./static/**/*.js" (by decide)).1,
    (content_patterns_shape "./static/**/*.js" (by decide)).2.1,
    (content_patterns_shape "./static/**/*.js" (by decide)).2.2.1
      "./static/js/app.js" (by decide)⟩

/-- C8: the patterns of `content` are pairwise distinct: entries at different
positions of the list differ. -/
theorem content_pairwise_distinct (i j : Fin contentPatterns.length) (h : i ≠ j) :
    contentPatterns.get i ≠ contentPatterns.get j := by
  intro heq
  exact h ((List.Nodup.get_inj_iff contentPatterns_nodup).mp heq)

/-- C8 at the first two positions. -/
theorem content_pairwise_distinct_witness :
    (⟨0, by decide⟩ : Fin contentPatterns.length) ≠ ⟨1, by decide⟩
    ∧ contentPatterns.get ⟨0, by decide⟩ ≠ contentPatterns.get ⟨1, by decide⟩ :=
  ⟨by decide, content_pairwise_distinct ⟨0, by decide⟩ ⟨1, by decide⟩ (by decide)⟩

end TailwindConfig
